import Mathlib

/-!
Verification of the pair-sum program in src/a.cpp.

The program has two parts:

* `twoSum` (lines 9-19): a single left-to-right pass over a vector of
  integers, keeping an `unordered_map<int,int>` from a value seen so far to
  an index where it occurred.  At index `i` it computes
  `complement = target - nums[i]`; if `complement` is a key of the map it
  returns `{numMap[complement], i}`, otherwise it executes
  `numMap[nums[i]] = i` (note: `operator[]` assigns unconditionally, so a
  repeated value OVERWRITES the previously stored index) and continues.
  If the loop finishes it returns the empty vector.

* `main` (lines 21-41): repeatedly does `std::cin >> num` followed by
  `std::cin.get(c)`; if the character read is a newline it breaks (so `num`
  is not appended), otherwise it appends `num` to the vector and continues.
  After the loop, `target = num` and `twoSum(nums, target)` is printed.

The embedding below uses `List Int` for `std::vector<int>`, `Nat` for the
loop index, and a function `Int → Option Nat` for the hash map.  C++ `int`
arithmetic is modelled by unbounded `Int` (the program performs a single
subtraction and comparisons; no width-dependent behaviour is specified).
-/

/-- The `unordered_map<int,int>` is modelled as a partial function from
values to indices.  `mapInsert m k v` is the effect of `numMap[k] = v`:
it assigns unconditionally, overwriting any previous binding of `k`. -/
def mapInsert (m : Int → Option Nat) (k : Int) (v : Nat) : Int → Option Nat :=
  fun x => if x = k then some v else m x

/-- The loop of `twoSum` (src/a.cpp lines 11-17).  `i` is the current value
of the loop counter, `m` the current contents of `numMap`, and the list
argument is the remaining suffix `nums[i..]` of the vector, so the head `x`
is `nums[i]`.  The `match` on `m (target - x)` is the membership test
`numMap.find(complement) != numMap.end()`; in the hit case the returned
vector is `{numMap[complement], i}`. -/
def twoSumGo (target : Int) (m : Int → Option Nat) (i : Nat) : List Int → List Nat
  | [] => []
  | x :: rest =>
    match m (target - x) with
    | some j => [j, i]
    | none => twoSumGo target (mapInsert m x i) (i + 1) rest

/-- `twoSum` (src/a.cpp lines 9-19): the loop starts with an empty map and
index 0; falling out of the loop returns the empty vector. -/
def twoSum (nums : List Int) (target : Int) : List Nat :=
  twoSumGo target (fun _ => none) 0 nums

/-- `sumsTo nums target a b` is the (decidable) statement
`nums[a] + nums[b] == target`, with out-of-range indices yielding `false`. -/
def sumsTo (nums : List Int) (target : Int) (a b : Nat) : Bool :=
  match nums[a]?, nums[b]? with
  | some x, some y => decide (x + y = target)
  | _, _ => false

/-- No pair of indices `a < b` with `b < n` sums to the target. -/
def NoPairBelow (nums : List Int) (target : Int) (n : Nat) : Prop :=
  ∀ b < n, ∀ a < b, sumsTo nums target a b = false

instance NoPairBelow.decidable (nums : List Int) (target : Int) (n : Nat) :
    Decidable (NoPairBelow nums target n) :=
  inferInstanceAs (Decidable (∀ b < n, ∀ a < b, sumsTo nums target a b = false))

/-- `m` maps a value `v` to `some j` exactly when `j` is the LAST index
before `i` at which `v` occurs in `nums` (and to `none` when `v` does not
occur before `i`).  This is the actual invariant of `numMap`, because
`numMap[nums[i]] = i` overwrites the binding of a repeated value. -/
def LastOccBelow (nums : List Int) (i : Nat) (m : Int → Option Nat) : Prop :=
  ∀ v j, m v = some j ↔
    (j < i ∧ nums[j]? = some v ∧ ∀ k, j < k → k < i → nums[k]? ≠ some v)

theorem sumsTo_eq_true {nums : List Int} {target : Int} {a b : Nat} :
    sumsTo nums target a b = true ↔
      ∃ x y, nums[a]? = some x ∧ nums[b]? = some y ∧ x + y = target := by
  unfold sumsTo
  constructor
  · intro h
    split at h
    · next x y hx hy => exact ⟨x, y, hx, hy, of_decide_eq_true h⟩
    · exact absurd h (by simp)
  · rintro ⟨x, y, hx, hy, hxy⟩
    rw [hx, hy]
    exact decide_eq_true hxy

theorem sumsTo_eq_false {nums : List Int} {target : Int} {a b : Nat} :
    sumsTo nums target a b = false ↔
      ¬ ∃ x y, nums[a]? = some x ∧ nums[b]? = some y ∧ x + y = target := by
  rw [← sumsTo_eq_true]
  cases h : sumsTo nums target a b <;> simp

theorem drop_cons_facts {nums : List Int} :
    ∀ {i : Nat} {x : Int} {rest : List Int}, nums.drop i = x :: rest →
      nums[i]? = some x ∧ nums.drop (i + 1) = rest := by
  intro i x rest h
  have hlt : i < nums.length := by
    by_contra hge
    rw [List.drop_eq_nil_of_le (by omega)] at h
    exact List.noConfusion h
  rw [List.drop_eq_getElem_cons hlt] at h
  obtain ⟨h1, h2⟩ := List.cons.injEq .. ▸ h
  exact ⟨by rw [List.getElem?_eq_getElem hlt, h1], h2⟩

theorem exists_lastOcc {nums : List Int} {v : Int} :
    ∀ {i a : Nat}, a < i → nums[a]? = some v →
      ∃ j, j < i ∧ nums[j]? = some v ∧ ∀ k, j < k → k < i → nums[k]? ≠ some v := by
  intro i
  induction i with
  | zero => omega
  | succ n ih =>
    intro a ha hv
    by_cases hn : nums[n]? = some v
    · exact ⟨n, by omega, hn, fun k hk1 hk2 => by omega⟩
    · have han : a < n := by
        rcases Nat.lt_succ_iff_lt_or_eq.mp ha with h | h
        · exact h
        · exact absurd (h ▸ hv) hn
      obtain ⟨j, hj1, hj2, hj3⟩ := ih han hv
      refine ⟨j, by omega, hj2, fun k hk1 hk2 => ?_⟩
      by_cases hkn : k = n
      · exact hkn ▸ hn
      · exact hj3 k hk1 (by omega)

theorem lastOcc_insert {nums : List Int} {i : Nat} {m : Int → Option Nat} {x : Int}
    (hx : nums[i]? = some x) (h : LastOccBelow nums i m) :
    LastOccBelow nums (i + 1) (mapInsert m x i) := by
  intro v j
  unfold mapInsert
  by_cases hv : v = x
  · subst hv
    simp only [if_pos rfl]
    constructor
    · intro hj
      have : j = i := by exact (Option.some.injEq ..) ▸ (hj.symm ▸ rfl)
      subst this
      exact ⟨by omega, hx, fun k hk1 hk2 => by omega⟩
    · rintro ⟨hj1, hj2, hj3⟩
      by_cases hji : j = i
      · subst hji
        simp
      · exact absurd hx (hj3 i (by omega) (by omega))
  · have hne : v ≠ x := hv
    simp only [if_neg hne]
    rw [h v j]
    constructor
    · rintro ⟨hj1, hj2, hj3⟩
      refine ⟨by omega, hj2, fun k hk1 hk2 => ?_⟩
      by_cases hki : k = i
      · subst hki
        rw [hx]
        intro hcontra
        exact hne (Option.some.inj hcontra).symm
      · exact hj3 k hk1 (by omega)
    · rintro ⟨hj1, hj2, hj3⟩
      have hji : j ≠ i := by
        intro hji
        subst hji
        rw [hj2] at hx
        exact hne (Option.some.inj hx)
      exact ⟨by omega, hj2, fun k hk1 hk2 => hj3 k hk1 (by omega)⟩

theorem lastOcc_empty (nums : List Int) : LastOccBelow nums 0 (fun _ => none) := by
  intro v j
  constructor
  · intro h
    exact absurd h (by simp)
  · rintro ⟨h1, _, _⟩
    omega

theorem noPair_zero (nums : List Int) (target : Int) : NoPairBelow nums target 0 := by
  intro b hb
  omega

/-- Master lemma for the `twoSum` loop: starting at index `i` with a map
satisfying the last-occurrence invariant and no qualifying pair whose
second index is below `i`, the loop either returns the empty vector and no
qualifying pair exists at all, or it returns `[p, q]` where `q` is the
first index whose complement occurs earlier and `p` is the last occurrence
of that complement before `q`. -/
theorem twoSumGo_spec (nums : List Int) (target : Int) :
    ∀ (l : List Int) (i : Nat) (m : Int → Option Nat),
      nums.drop i = l → LastOccBelow nums i m → NoPairBelow nums target i →
      (twoSumGo target m i l = [] ∧ NoPairBelow nums target nums.length) ∨
      (∃ p q, twoSumGo target m i l = [p, q] ∧ p < q ∧ q < nums.length ∧
        NoPairBelow nums target q ∧
        ∃ y, nums[q]? = some y ∧ nums[p]? = some (target - y) ∧
          ∀ k, p < k → k < q → nums[k]? ≠ some (target - y)) := by
  intro l
  induction l with
  | nil =>
    intro i m hdrop hm hnp
    left
    refine ⟨rfl, fun b hb a ha => ?_⟩
    have hle : nums.length ≤ i := by
      by_contra hlt
      rw [List.drop_eq_getElem_cons (by omega)] at hdrop
      exact List.noConfusion hdrop
    exact hnp b (by omega) a ha
  | cons x rest ih =>
    intro i m hdrop hm hnp
    obtain ⟨hgi, hdrop2⟩ := drop_cons_facts hdrop
    have hilen : i < nums.length := by
      by_contra hge
      rw [List.getElem?_eq_none (by omega)] at hgi
      exact Option.noConfusion hgi
    cases hc : m (target - x) with
    | some p =>
      right
      obtain ⟨hp1, hp2, hp3⟩ := (hm (target - x) p).mp hc
      refine ⟨p, i, ?_, hp1, hilen, hnp, x, hgi, hp2, hp3⟩
      simp [twoSumGo, hc]
    | none =>
      have hm2 := lastOcc_insert hgi hm
      have hnp2 : NoPairBelow nums target (i + 1) := by
        intro b hb a ha
        by_cases hbi : b < i
        · exact hnp b hbi a ha
        · have hbi2 : b = i := by omega
          subst hbi2
          cases hst : sumsTo nums target a b with
          | false => rfl
          | true =>
            exfalso
            obtain ⟨xa, y, hxa, hy, hsum⟩ := sumsTo_eq_true.mp hst
            have hyx : y = x := by
              rw [hgi] at hy
              exact (Option.some.inj hy).symm
            subst hyx
            have hxa2 : nums[a]? = some (target - y) := by
              have : xa = target - y := by omega
              exact this ▸ hxa
            obtain ⟨j, hj1, hj2, hj3⟩ := exists_lastOcc ha hxa2
            have : m (target - y) = some j := (hm (target - y) j).mpr ⟨hj1, hj2, hj3⟩
            rw [hc] at this
            exact Option.noConfusion this
      have := ih (i + 1) (mapInsert m x i) hdrop2 hm2 hnp2
      simpa [twoSumGo, hc] using this

/-- The master lemma instantiated at the initial state of `twoSum`:
empty map, index 0, whole vector. -/
theorem twoSum_spec (nums : List Int) (target : Int) :
    (twoSum nums target = [] ∧ NoPairBelow nums target nums.length) ∨
    (∃ p q, twoSum nums target = [p, q] ∧ p < q ∧ q < nums.length ∧
      NoPairBelow nums target q ∧
      ∃ y, nums[q]? = some y ∧ nums[p]? = some (target - y) ∧
        ∀ k, p < k → k < q → nums[k]? ≠ some (target - y)) :=
  twoSumGo_spec nums target nums 0 (fun _ => none) rfl
    (lastOcc_empty nums) (noPair_zero nums target)

/-- Wrapper for the conclusion of the corrected C3 claim: `p` is an index
of the complement `target - nums[q]` and no LATER index before `q` holds
that complement (i.e. `p` is the last occurrence of the complement
before `q`). -/
def FirstIdxIsLastComplementOcc (nums : List Int) (target : Int) (p q : Nat) : Prop :=
  p < q ∧ ∃ y, nums[q]? = some y ∧ nums[p]? = some (target - y) ∧
    ∀ k, p < k → k < q → nums[k]? ≠ some (target - y)

/-- C1: soundness of the result.  For every sequence and target, `twoSum`
returns either the empty result or a pair of indices `[p, q]` with
`p < q < length nums` and `nums[p] + nums[q] = target`. -/
theorem twoSum_sound (nums : List Int) (target : Int) :
    twoSum nums target = [] ∨
    ∃ p q, twoSum nums target = [p, q] ∧ p < q ∧ q < nums.length ∧
      sumsTo nums target p q = true := by
  have h := twoSum_spec nums target
  rcases h with ⟨he, _⟩ | ⟨p, q, heq, hpq, hqlen, _, y, hy, hp, _⟩
  · exact Or.inl he
  · refine Or.inr ⟨p, q, heq, hpq, hqlen, ?_⟩
    exact sumsTo_eq_true.mpr ⟨target - y, y, hp, hy, by omega⟩

/-- C2: earliest-second-index guarantee.  If `twoSum` returns `[p, q]`,
then no pair of indices `a < b` with `b < q` has `nums[a] + nums[b] =
target`. -/
theorem twoSum_earliest_second_index (nums : List Int) (target : Int) (p q : Nat)
    (h : twoSum nums target = [p, q]) : NoPairBelow nums target q := by
  have hs := twoSum_spec nums target
  rcases hs with ⟨he, _⟩ | ⟨p2, q2, heq, _, _, hnp, _⟩
  · rw [h] at he
    exact List.noConfusion he
  · rw [h] at heq
    obtain ⟨hp, hq⟩ : p = p2 ∧ q = q2 := by simpa using heq
    rw [hq]
    exact hnp

theorem twoSum_earliest_second_index_w : NoPairBelow [3, 2, 4] 6 2 :=
  twoSum_earliest_second_index [3, 2, 4] 6 1 2 (by decide)

/-- C3 counterexample: on the sequence `[3, 3, 6]` with target `9`,
`twoSum` returns `[1, 2]`, yet index `0 < 1` already holds the complement
`9 - nums[2] = 3`, so the returned first index is NOT the smallest index
holding the complement (the lookup table kept the LATEST occurrence,
because `numMap[nums[i]] = i` on line 16 overwrites). -/
theorem twoSum_not_first_occurrence :
    twoSum [3, 3, 6] 9 = [1, 2] ∧
    ([3, 3, 6] : List Int)[2]? = some 6 ∧
    ([3, 3, 6] : List Int)[0]? = some (9 - 6) ∧ (0 : Nat) < 1 := by
  refine ⟨?_, by decide, by decide, by decide⟩
  decide

/-- C3 (amended): if `twoSum` returns `[p, q]`, then `p` is the LARGEST
index `k < q` with `nums[k] = target - nums[q]` — the last occurrence of
the complement, not the first, because line 16 overwrites the stored
index of a repeated value. -/
theorem twoSum_first_index_last_occ (nums : List Int) (target : Int) (p q : Nat)
    (h : twoSum nums target = [p, q]) :
    FirstIdxIsLastComplementOcc nums target p q := by
  have hs := twoSum_spec nums target
  rcases hs with ⟨he, _⟩ | ⟨p2, q2, heq, hpq, _, _, y, hy, hp, hlast⟩
  · rw [h] at he
    exact List.noConfusion he
  · rw [h] at heq
    obtain ⟨hpe, hqe⟩ : p = p2 ∧ q = q2 := by simpa using heq
    rw [FirstIdxIsLastComplementOcc, hpe, hqe]
    exact ⟨hpq, y, hy, hp, hlast⟩

theorem twoSum_first_index_last_occ_w : FirstIdxIsLastComplementOcc [3, 3, 6] 9 1 2 :=
  twoSum_first_index_last_occ [3, 3, 6] 9 1 2 (by decide)

/-- C5: completeness.  If some pair `a < b < length nums` sums to the
target, `twoSum` does not return the empty result: it returns a (length
two) pair. -/
theorem twoSum_complete (nums : List Int) (target : Int)
    (h : ∃ a b, a < b ∧ b < nums.length ∧ sumsTo nums target a b = true) :
    twoSum nums target ≠ [] ∧ (twoSum nums target).length = 2 := by
  obtain ⟨a, b, hab, hblen, hst⟩ := h
  have hs := twoSum_spec nums target
  rcases hs with ⟨_, hnp⟩ | ⟨p, q, heq, _, _, _, _⟩
  · exfalso
    rw [hnp b hblen a hab] at hst
    exact Bool.noConfusion hst
  · rw [heq]
    exact ⟨List.noConfusion, rfl⟩

theorem twoSum_complete_w :
    twoSum [2, 7, 11, 15] 9 ≠ [] ∧ (twoSum [2, 7, 11, 15] 9).length = 2 :=
  twoSum_complete [2, 7, 11, 15] 9 ⟨0, 1, by decide, by decide, by decide⟩

/-- C7: degenerate inputs.  The empty sequence and every single-element
sequence give the empty result for every target (an element is never
paired with itself, since the membership test at index 0 runs on the
still-empty map). -/
theorem twoSum_degenerate (t x : Int) : twoSum [] t = [] ∧ twoSum [x] t = [] := by
  constructor
  · rfl
  · simp [twoSum, twoSumGo]

theorem twoSum_degenerate_w : twoSum [] 5 = [] ∧ twoSum [7] 14 = [] :=
  twoSum_degenerate 5 7

/-- C8: the four concrete scenarios from the specification. -/
theorem twoSum_examples :
    twoSum [2, 7, 11, 15] 9 = [0, 1] ∧ twoSum [3, 2, 4] 6 = [1, 2] ∧
    twoSum [3, 3] 6 = [0, 1] ∧ twoSum [1, 2, 3] 100 = [] := by
  decide

/-- The contents of `numMap` at the moment the loop examines index `k`
(provided the loop actually reaches index `k`): the result of executing
`numMap[nums[j]] = j` for `j = 0, ..., k-1` in order, starting from the
empty map. -/
def mapAt (nums : List Int) : Nat → (Int → Option Nat)
  | 0 => fun _ => none
  | k + 1 =>
    match nums[k]? with
    | some x => mapInsert (mapAt nums k) x k
    | none => mapAt nums k

theorem mapAt_spec (nums : List Int) : ∀ k, LastOccBelow nums k (mapAt nums k) := by
  intro k
  induction k with
  | zero => exact lastOcc_empty nums
  | succ n ih =>
    cases hx : nums[n]? with
    | some x =>
      have := lastOcc_insert hx ih
      simpa [mapAt, hx] using this
    | none =>
      intro v j
      have h1 := ih v j
      simp only [mapAt, hx]
      rw [h1]
      constructor
      · rintro ⟨hj1, hj2, hj3⟩
        refine ⟨by omega, hj2, fun k hk1 hk2 => ?_⟩
        by_cases hkn : k = n
        · subst hkn
          rw [hx]
          exact Option.noConfusion
        · exact hj3 k hk1 (by omega)
      · rintro ⟨hj1, hj2, hj3⟩
        have hjn : j ≠ n := by
          intro hjn
          subst hjn
          rw [hj2] at hx
          exact Option.noConfusion hx
        exact ⟨by omega, hj2, fun k hk1 hk2 => hj3 k hk1 (by omega)⟩

/-- The key set of the table at step `k` is exactly the set of values of
the prefix `nums[0..k-1]`, and each key maps to its LAST occurrence in
that prefix. -/
def TableLastOccInvariant (nums : List Int) (k : Nat) : Prop :=
  (∀ v, (mapAt nums k v).isSome = true ↔ v ∈ nums.take k) ∧
  LastOccBelow nums k (mapAt nums k)

theorem mapAt_isSome (nums : List Int) (k : Nat) (v : Int) :
    (mapAt nums k v).isSome = true ↔ v ∈ nums.take k := by
  rw [Option.isSome_iff_exists]
  constructor
  · rintro ⟨j, hj⟩
    obtain ⟨hj1, hj2, _⟩ := (mapAt_spec nums k v j).mp hj
    have ht : (nums.take k)[j]? = some v := by
      rw [List.getElem?_take, if_pos hj1]
      exact hj2
    exact List.getElem?_mem ht
  · intro hv
    obtain ⟨j, hjlen, hj⟩ := List.getElem_of_mem hv
    have hjk : j < k := by
      have h2 := List.length_take k nums
      rw [h2] at hjlen
      exact lt_of_lt_of_le hjlen (min_le_left k nums.length)
    have hj2 : nums[j]? = some v := by
      have heq : (nums.take k)[j]? = nums[j]? := by
        rw [List.getElem?_take, if_pos hjk]
      rw [← heq, List.getElem?_eq_getElem hjlen, hj]
    obtain ⟨l, hl1, hl2, hl3⟩ := exists_lastOcc hjk hj2
    exact ⟨l, (mapAt_spec nums k v l).mpr ⟨hl1, hl2, hl3⟩⟩

/-- If no qualifying pair has its second index below `k` (so the scan of
`twoSum` is still running when it reaches index `k`), the whole run of
`twoSum` continues from state `(mapAt nums k, k)`: the table at the
moment index `k` is examined is exactly `mapAt nums k`. -/
theorem twoSum_reach (nums : List Int) (target : Int) :
    ∀ k, k ≤ nums.length → NoPairBelow nums target k →
      twoSum nums target = twoSumGo target (mapAt nums k) k (nums.drop k) := by
  intro k
  induction k with
  | zero => intro _ _; rfl
  | succ n ih =>
    intro hk hnp
    have hnpn : NoPairBelow nums target n := fun b hb a ha => hnp b (by omega) a ha
    have h1 := ih (by omega) hnpn
    rw [h1]
    have hlt : n < nums.length := by omega
    have hx : nums[n]? = some nums[n] := List.getElem?_eq_getElem hlt
    rw [List.drop_eq_getElem_cons hlt]
    have hnone : mapAt nums n (target - nums[n]) = none := by
      cases hc : mapAt nums n (target - nums[n]) with
      | none => rfl
      | some p =>
        exfalso
        obtain ⟨hp1, hp2, _⟩ := (mapAt_spec nums n (target - nums[n]) p).mp hc
        have : sumsTo nums target p n = true :=
          sumsTo_eq_true.mpr ⟨target - nums[n], nums[n], hp2, hx, by omega⟩
        rw [hnp n (by omega) p hp1] at this
        exact Bool.noConfusion this
    simp only [twoSumGo, hnone]
    have hmap : mapInsert (mapAt nums n) nums[n] n = mapAt nums (n + 1) := by
      simp [mapAt, hx]
    rw [hmap]

/-- C4 counterexample: on `[3, 3, 6]` with target `9`, the scan reaches
index `2` with table `mapAt [3,3,6] 2`, and that table maps the key `3`
to index `1` — not to `0`, the first occurrence of `3` in the prefix.
So the table does NOT map each key to its first occurrence. -/
theorem table_not_first_occurrence :
    twoSum [3, 3, 6] 9 = twoSumGo 9 (mapAt [3, 3, 6] 2) 2 (List.drop 2 [3, 3, 6]) ∧
    mapAt [3, 3, 6] 2 3 = some 1 ∧
    ([3, 3, 6] : List Int)[0]? = some 3 ∧ (0 : Nat) ≠ 1 := by
  refine ⟨by decide, by decide, by decide, by decide⟩

/-- C4 (amended): when the scan of `twoSum` reaches index `k` (no
qualifying pair has second index below `k`), the table it holds at that
moment is `mapAt nums k`; its key set is exactly the set of values of
`nums[0..k-1]`, and each key maps to its LAST occurrence in that prefix
(not the first: `numMap[nums[i]] = i` overwrites repeated values). -/
theorem twoSum_table_invariant (nums : List Int) (target : Int) (k : Nat)
    (hk : k ≤ nums.length) (hnp : NoPairBelow nums target k) :
    twoSum nums target = twoSumGo target (mapAt nums k) k (nums.drop k) ∧
    TableLastOccInvariant nums k :=
  ⟨twoSum_reach nums target k hk hnp, fun v => mapAt_isSome nums k v, mapAt_spec nums k⟩

theorem twoSum_table_invariant_w :
    twoSum [3, 3, 6] 9 = twoSumGo 9 (mapAt [3, 3, 6] 2) 2 (List.drop 2 [3, 3, 6]) ∧
    TableLastOccInvariant [3, 3, 6] 2 :=
  twoSum_table_invariant [3, 3, 6] 9 2 (by decide) (by decide)

/-- State-passing embedding of `twoSum` for the by-reference parameter
`std::vector<int>& nums`: the vector is threaded through the loop as
explicit state and returned alongside the result.  Every access
(`nums.size()`, `nums[i]`) is a read; no statement of the function writes
to the vector, so each step passes the state on unchanged. -/
def twoSumRefGo (target : Int) (nums : List Int) (m : Int → Option Nat) (i : Nat) :
    List Int × List Nat :=
  if h : i < nums.length then
    match m (target - nums.get ⟨i, h⟩) with
    | some j => (nums, [j, i])
    | none => twoSumRefGo target nums (mapInsert m (nums.get ⟨i, h⟩) i) (i + 1)
  else (nums, [])
termination_by nums.length - i

/-- `twoSum` with the vector state made explicit. -/
def twoSumRef (nums : List Int) (target : Int) : List Int × List Nat :=
  twoSumRefGo target nums (fun _ => none) 0

theorem twoSumRefGo_spec (nums : List Int) (target : Int) :
    ∀ d i m, nums.length - i = d →
      (twoSumRefGo target nums m i).1 = nums ∧
      (twoSumRefGo target nums m i).2 = twoSumGo target m i (nums.drop i) := by
  intro d
  induction d with
  | zero =>
    intro i m hd
    have hge : ¬ i < nums.length := by omega
    rw [twoSumRefGo, dif_neg hge]
    rw [List.drop_eq_nil_of_le (by omega)]
    exact ⟨rfl, rfl⟩
  | succ n ih =>
    intro i m hd
    have hlt : i < nums.length := by omega
    rw [twoSumRefGo, dif_pos hlt]
    rw [List.drop_eq_getElem_cons hlt]
    cases hc : m (target - nums[i]) with
    | some j =>
      exact ⟨rfl, by simp [twoSumGo, hc]⟩
    | none =>
      have hrec := ih (i + 1) (mapInsert m nums[i] i) (by omega)
      refine ⟨hrec.1, ?_⟩
      simp only [twoSumGo, hc]
      exact hrec.2

/-- C9: the vector passed by reference is never modified — after the call
the state equals the input vector element for element, and the computed
result agrees with the functional `twoSum`. -/
theorem twoSumRef_frame (nums : List Int) (target : Int) :
    (twoSumRef nums target).1 = nums ∧ (twoSumRef nums target).2 = twoSum nums target :=
  twoSumRefGo_spec nums target (nums.length - 0) 0 (fun _ => none) rfl

/-- The whitespace set of the default C locale, used by `operator>>` to
skip leading separators: space, tab, newline, vertical tab, form feed,
carriage return. -/
def isWS (c : Char) : Bool :=
  c = ' ' || c = '\t' || c = '\n' || c = '\x0b' || c = '\x0c' || c = '\r'

/-- Numeric value of a decimal digit string, most significant first. -/
def digitsVal (ds : List Char) : Int :=
  ds.foldl (fun a c => 10 * a + ((c.toNat : Int) - 48)) 0

/-- Read a nonempty run of decimal digits from the front of `s`; fail if
the first character is not a digit. -/
def readDigits (s : List Char) : Option (Int × List Char) :=
  if (s.takeWhile Char.isDigit).isEmpty then none
  else some (digitsVal (s.takeWhile Char.isDigit), s.dropWhile Char.isDigit)

/-- Read an optionally signed decimal integer from the front of `s`
(no leading whitespace). -/
def readSigned (s : List Char) : Option (Int × List Char) :=
  if s.head? = some '-' then
    (readDigits s.tail).map (fun p => (-p.1, p.2))
  else if s.head? = some '+' then readDigits s.tail
  else readDigits s

/-- `std::cin >> num` on the remaining stream `s`: skip whitespace, then
read an optionally signed run of digits.  Returns the value read and the
rest of the stream, or `none` when extraction fails (end of stream or a
non-numeric character). -/
def readInt (s : List Char) : Option (Int × List Char) :=
  readSigned (s.dropWhile isWS)

theorem length_dropWhile_le (p : Char → Bool) (l : List Char) :
    (l.dropWhile p).length ≤ l.length := by
  conv_rhs => rw [← List.takeWhile_append_dropWhile p l]
  rw [List.length_append]
  omega

theorem readDigits_length {s rest : List Char} {n : Int}
    (h : readDigits s = some (n, rest)) : rest.length < s.length := by
  unfold readDigits at h
  by_cases he : (s.takeWhile Char.isDigit).isEmpty
  · rw [if_pos he] at h
    exact Option.noConfusion h
  · rw [if_neg he] at h
    obtain ⟨-, h2⟩ := Prod.mk.injEq .. ▸ Option.some.inj h
    subst h2
    have hlen := congrArg List.length (List.takeWhile_append_dropWhile Char.isDigit s)
    rw [List.length_append] at hlen
    have hne : s.takeWhile Char.isDigit ≠ [] := by
      intro hc
      rw [hc] at he
      exact he rfl
    have : 0 < (s.takeWhile Char.isDigit).length := List.length_pos.mpr hne
    omega

theorem readSigned_length {s rest : List Char} {n : Int}
    (h : readSigned s = some (n, rest)) : rest.length < s.length := by
  unfold readSigned at h
  by_cases h1 : s.head? = some '-'
  · rw [if_pos h1] at h
    obtain ⟨ys, hys⟩ := List.head?_eq_some_iff.mp h1
    obtain ⟨⟨w, r⟩, hw, hmap⟩ := Option.map_eq_some'.mp h
    obtain ⟨-, h2⟩ := Prod.mk.injEq .. ▸ hmap
    subst h2
    have := readDigits_length hw
    rw [hys] at this ⊢
    simp only [List.tail_cons] at this
    simp only [List.length_cons]
    omega
  · rw [if_neg h1] at h
    by_cases h2 : s.head? = some '+'
    · rw [if_pos h2] at h
      obtain ⟨ys, hys⟩ := List.head?_eq_some_iff.mp h2
      have := readDigits_length h
      rw [hys] at this ⊢
      simp only [List.tail_cons] at this
      simp only [List.length_cons]
      omega
    · rw [if_neg h2] at h
      exact readDigits_length h

theorem readInt_length {s rest : List Char} {n : Int}
    (h : readInt s = some (n, rest)) : rest.length < s.length := by
  have h1 := readSigned_length h
  have h2 := length_dropWhile_le isWS s
  omega

/-- The input loop of `main` (src/a.cpp lines 26-32) together with the
assignment `target = num` on line 33.  Each iteration is
`std::cin >> num` followed by `std::cin.get(c)`:

* if extraction of `num` fails, the loop exits and the result is the
  accumulated vector with the previous value of `num` as target;
* if `get` hits end of stream (empty rest), the stream enters a failed
  state and `c` keeps its previous value — a non-newline separator char
  whenever at least one iteration already completed — so `num` is pushed
  and the next extraction is a no-op on the failed stream: the loop exits
  with `target = num` (on a stream whose only integer is at the very end,
  the C++ `c` is an indeterminate uninitialized char; the model takes the
  non-newline branch);
* if the character read is a newline, the loop breaks WITHOUT pushing
  `num`, and `num` becomes the target;
* otherwise `num` is pushed and the loop continues.  -/
def readLoop (s : List Char) (nums : List Int) (num : Int) : List Int × Int :=
  match hR : readInt s with
  | none => (nums, num)
  | some (n, rest) =>
    match rest with
    | [] => (nums ++ [n], n)
    | c :: rest2 =>
      if c = '\n' then (nums, n)
      else readLoop rest2 (nums ++ [n]) n
termination_by s.length
decreasing_by
  have h1 := readInt_length hR
  simp only [List.length_cons] at h1
  omega

/-- `main`'s parsing phase: run the input loop on the whole stream with an
empty vector.  The initial `0` stands for the indeterminate initial value
of the uninitialized `int num`; it is returned as target only when the
stream contains no integer at all. -/
def parseMain (s : List Char) : List Int × Int :=
  readLoop s [] 0

/-- The value printed by `main` (as a list of indices): `twoSum` applied
to the parsed sequence and target. -/
def mainOutput (s : List Char) : List Nat :=
  twoSum (parseMain s).1 (parseMain s).2

theorem ws_not_digit {c : Char} (h : isWS c = true) : c.isDigit = false := by
  unfold isWS at h
  simp only [Bool.or_eq_true, decide_eq_true_eq] at h
  rcases h with ((((h | h) | h) | h) | h) | h <;> subst h <;> decide

theorem digit_not_ws {c : Char} (h : c.isDigit = true) : isWS c = false := by
  cases hw : isWS c
  · rfl
  · rw [ws_not_digit hw] at h
    exact Bool.noConfusion h

/-- All characters of `l` are whitespace. -/
def AllWS (l : List Char) : Prop := ∀ c ∈ l, isWS c = true

instance AllWS.decidable (l : List Char) : Decidable (AllWS l) :=
  inferInstanceAs (Decidable (∀ c ∈ l, isWS c = true))

/-- `tk` is exactly the text of an integer token of value `v`: extraction
parses all of `tk` and yields `v`. -/
def IsIntTok (tk : List Char) (v : Int) : Prop := readSigned tk = some (v, [])

instance IsIntTok.decidable (tk : List Char) (v : Int) : Decidable (IsIntTok tk v) :=
  inferInstanceAs (Decidable (readSigned tk = some (v, [])))

theorem IsIntTok.not_nil {v : Int} : ¬ IsIntTok [] v := by
  intro h
  have he : readSigned ([] : List Char) = none := rfl
  rw [IsIntTok, he] at h
  exact Option.noConfusion h

theorem dropWhile_append_all {p : Char → Bool} :
    ∀ {l r : List Char}, (∀ c ∈ l, p c = true) →
      (l ++ r).dropWhile p = r.dropWhile p := by
  intro l
  induction l with
  | nil => intro r _; rfl
  | cons c t ih =>
    intro r h
    rw [List.cons_append, List.dropWhile_cons, if_pos (h c (List.mem_cons_self c t))]
    exact ih (fun d hd => h d (List.mem_cons_of_mem c hd))

theorem takedrop_append_all {p : Char → Bool} :
    ∀ {l r : List Char}, (∀ c ∈ l, p c = true) →
      (∀ c, r.head? = some c → p c = false) →
      ((l ++ r).takeWhile p = l ∧ (l ++ r).dropWhile p = r) := by
  intro l
  induction l with
  | nil =>
    intro r _ hr
    simp only [List.nil_append]
    cases r with
    | nil => exact ⟨rfl, rfl⟩
    | cons c r2 =>
      have hc := hr c rfl
      rw [List.takeWhile_cons, List.dropWhile_cons, if_neg (by simp [hc]),
        if_neg (by simp [hc])]
      exact ⟨rfl, rfl⟩
  | cons c t ih =>
    intro r h hr
    have hc : p c = true := h c (List.mem_cons_self c t)
    obtain ⟨h1, h2⟩ := ih (fun d hd => h d (List.mem_cons_of_mem c hd)) hr
    rw [List.cons_append, List.takeWhile_cons, List.dropWhile_cons, if_pos hc,
      if_pos hc, h1, h2]
    exact ⟨rfl, rfl⟩

theorem readDigits_append {l rest : List Char} {w : Int}
    (h : readDigits l = some (w, [])) (hr : ∀ c, rest.head? = some c → c.isDigit = false) :
    readDigits (l ++ rest) = some (w, rest) := by
  unfold readDigits at h
  by_cases he : (l.takeWhile Char.isDigit).isEmpty = true
  · rw [if_pos he] at h
    exact Option.noConfusion h
  · rw [if_neg he] at h
    obtain ⟨h1, h2⟩ := Prod.mk.injEq .. ▸ Option.some.inj h
    have hall : ∀ c ∈ l, Char.isDigit c = true := List.dropWhile_eq_nil_iff.mp h2
    have htake : l.takeWhile Char.isDigit = l := by
      have ha := List.takeWhile_append_dropWhile Char.isDigit l
      rw [h2, List.append_nil] at ha
      exact ha
    obtain ⟨ht, hd⟩ := takedrop_append_all hall hr
    unfold readDigits
    rw [ht, hd]
    have hlne : ¬ l.isEmpty = true := by
      rw [← htake]
      exact he
    rw [if_neg hlne]
    rw [htake] at h1
    rw [h1]

theorem IsIntTok.head_not_ws {tk : List Char} {v : Int} (h : IsIntTok tk v) :
    ∀ c, tk.head? = some c → isWS c = false := by
  intro c hc
  obtain ⟨ys, hys⟩ := List.head?_eq_some_iff.mp hc
  subst hys
  rw [IsIntTok, readSigned] at h
  by_cases h1 : c = '-'
  · subst h1
    decide
  · by_cases h2 : c = '+'
    · subst h2
      decide
    · rw [List.head?_cons, if_neg (by simp [h1]), if_neg (by simp [h2])] at h
      unfold readDigits at h
      by_cases he : ((c :: ys).takeWhile Char.isDigit).isEmpty = true
      · rw [if_pos he] at h
        exact Option.noConfusion h
      · cases hd : c.isDigit
        · exfalso
          apply he
          rw [List.takeWhile_cons, if_neg (by simp [hd])]
          rfl
        · exact digit_not_ws hd

theorem readSigned_append {tk rest : List Char} {v : Int}
    (h : IsIntTok tk v) (hr : ∀ c, rest.head? = some c → c.isDigit = false) :
    readSigned (tk ++ rest) = some (v, rest) := by
  rw [IsIntTok] at h
  cases tk with
  | nil => exact absurd h (by intro hx; exact Option.noConfusion hx)
  | cons c t =>
    rw [List.cons_append]
    by_cases h1 : c = '-'
    · subst h1
      have e : ∀ (u : List Char),
          readSigned ('-' :: u) = (readDigits u).map (fun p => (-p.1, p.2)) := by
        intro u
        rw [readSigned, List.head?_cons, List.tail_cons, if_pos rfl]
      rw [e] at h
      rw [e]
      obtain ⟨⟨w, r⟩, hw, hmap⟩ := Option.map_eq_some'.mp h
      obtain ⟨hm1, hm2⟩ := Prod.mk.injEq .. ▸ hmap
      subst hm2
      rw [readDigits_append hw hr]
      simp [hm1]
    · by_cases h2 : c = '+'
      · subst h2
        have e : ∀ (u : List Char), readSigned ('+' :: u) = readDigits u := by
          intro u
          rw [readSigned, List.head?_cons, List.tail_cons, if_neg (by simp), if_pos rfl]
        rw [e] at h
        rw [e]
        exact readDigits_append h hr
      · have e : ∀ (u : List Char), readSigned (c :: u) = readDigits (c :: u) := by
          intro u
          rw [readSigned, List.head?_cons, if_neg (by simp [h1]), if_neg (by simp [h2])]
        rw [e] at h
        rw [e]
        rw [← List.cons_append]
        exact readDigits_append h hr

theorem readInt_ws_tok (ws tk rest : List Char) (v : Int)
    (hws : AllWS ws) (htk : IsIntTok tk v)
    (hr : ∀ c, rest.head? = some c → c.isDigit = false) :
    readInt (ws ++ (tk ++ rest)) = some (v, rest) := by
  unfold readInt
  rw [dropWhile_append_all hws]
  cases tk with
  | nil => exact absurd htk IsIntTok.not_nil
  | cons c t =>
    have hcw : isWS c = false := IsIntTok.head_not_ws htk c rfl
    rw [List.cons_append, List.dropWhile_cons, if_neg (by simp [hcw]), ← List.cons_append]
    exact readSigned_append htk hr

theorem readLoop_eq (s : List Char) (acc : List Int) (n0 : Int) :
    readLoop s acc n0 =
      match readInt s with
      | none => (acc, n0)
      | some (n, rest) =>
        match rest with
        | [] => (acc ++ [n], n)
        | c :: rest2 => if c = '\n' then (acc, n) else readLoop rest2 (acc ++ [n]) n := by
  rw [readLoop]
  split
  · next heq => rw [heq]
  · next n rest heq =>
    conv_rhs => rw [heq]
    cases rest with
    | nil => rfl
    | cons c rest2 => rfl

/-- One iteration in which `cin.get` reads a newline right after the
token: the loop breaks, `num` is not pushed, and the token value becomes
the target. -/
theorem readLoop_break (ws tk : List Char) (v : Int) (tail : List Char)
    (acc : List Int) (n0 : Int) (hws : AllWS ws) (htk : IsIntTok tk v) :
    readLoop (ws ++ (tk ++ ('\n' :: tail))) acc n0 = (acc, v) := by
  have hread := readInt_ws_tok ws tk ('\n' :: tail) v hws htk (fun d hd => by
    simp only [List.head?_cons, Option.some.injEq] at hd
    subst hd
    decide)
  rw [readLoop_eq, hread]
  exact if_pos rfl

/-- One iteration in which `cin.get` reads a non-newline separator: `num`
is pushed and the loop continues on the rest of the stream. -/
theorem readLoop_go (ws tk : List Char) (v : Int) (c : Char) (tail : List Char)
    (acc : List Int) (n0 : Int) (hws : AllWS ws) (htk : IsIntTok tk v)
    (hc : c ≠ '\n') (hcd : c.isDigit = false) :
    readLoop (ws ++ (tk ++ (c :: tail))) acc n0 = readLoop tail (acc ++ [v]) v := by
  have hread := readInt_ws_tok ws tk (c :: tail) v hws htk (fun d hd => by
    simp only [List.head?_cons, Option.some.injEq] at hd
    exact hd ▸ hcd)
  rw [readLoop_eq, hread]
  exact if_neg hc

/-- Final iteration at end of stream: the token is read, `cin.get` fails
(stream enters the failed state, `c` keeps its previous non-newline
value), so the value is pushed and also left in `num`: it becomes both the
last element and the target. -/
theorem readLoop_eof (ws tk : List Char) (v : Int) (acc : List Int) (n0 : Int)
    (hws : AllWS ws) (htk : IsIntTok tk v) :
    readLoop (ws ++ tk) acc n0 = (acc ++ [v], v) := by
  have hsplit : ws ++ tk = ws ++ (tk ++ []) := by simp
  have hread := readInt_ws_tok ws tk [] v hws htk (fun d hd => Option.noConfusion hd)
  rw [hsplit, readLoop_eq, hread]

/-- One chunk of a well-formed input stream: optional leading whitespace,
the text of an integer token with its value, and the single separator
character that `cin.get(c)` consumes right after the token. -/
structure Chunk where
  ws : List Char
  tok : List Char
  val : Int
  sep : Char

/-- The chunk is well formed: the leading part is whitespace, the token
parses to the stated value, and the separator is whitespace but not a
newline. -/
def chunkOk (ch : Chunk) : Prop :=
  AllWS ch.ws ∧ IsIntTok ch.tok ch.val ∧ isWS ch.sep = true ∧ ch.sep ≠ '\n'

instance chunkOk.decidable (ch : Chunk) : Decidable (chunkOk ch) :=
  inferInstanceAs
    (Decidable (AllWS ch.ws ∧ IsIntTok ch.tok ch.val ∧ isWS ch.sep = true ∧ ch.sep ≠ '\n'))

/-- Concatenation of the chunks followed by a final part `tail`. -/
def chunksEnc : List Chunk → List Char → List Char
  | [], tail => tail
  | ch :: rest, tail => ch.ws ++ (ch.tok ++ (ch.sep :: chunksEnc rest tail))

/-- Running the input loop over a sequence of well-formed non-newline
chunks pushes exactly the chunk values, in order, and continues on the
final part with some current value of `num`. -/
theorem readLoop_chunks :
    ∀ (items : List Chunk) (tail : List Char),
      (∀ ch ∈ items, chunkOk ch) → ∀ (acc : List Int) (n0 : Int),
      ∃ n1, readLoop (chunksEnc items tail) acc n0 =
        readLoop tail (acc ++ items.map Chunk.val) n1 := by
  intro items
  induction items with
  | nil =>
    intro tail _ acc n0
    exact ⟨n0, by simp [chunksEnc]⟩
  | cons ch rest ih =>
    intro tail hok acc n0
    obtain ⟨hws, htk, hsep, hnl⟩ := hok ch (List.mem_cons_self ch rest)
    have hstep := readLoop_go ch.ws ch.tok ch.val ch.sep (chunksEnc rest tail) acc n0
      hws htk hnl (ws_not_digit hsep)
    obtain ⟨n1, h1⟩ := ih tail (fun d hd => hok d (List.mem_cons_of_mem ch hd))
      (acc ++ [ch.val]) ch.val
    refine ⟨n1, ?_⟩
    show readLoop (ch.ws ++ (ch.tok ++ (ch.sep :: chunksEnc rest tail))) acc n0 = _
    rw [hstep, h1]
    simp

/-- C6: input parsing.  For a stream made of whitespace-separated integer
tokens in which the first token followed immediately by a newline is the
last one — i.e. chunks whose separator characters are non-newline
whitespace, then optional whitespace, a final token, and a newline — the
parsed sequence is exactly the list of the chunk values (every integer
read before the final one) and the parsed target is the final token's
value, which is what `main` passes to `twoSum`.  Anything after the
newline is never read. -/
theorem parseMain_line (items : List Chunk) (wsT tkT : List Char) (t : Int)
    (tail : List Char) (hitems : ∀ ch ∈ items, chunkOk ch)
    (hws : AllWS wsT) (htk : IsIntTok tkT t) :
    parseMain (chunksEnc items (wsT ++ (tkT ++ ('\n' :: tail)))) =
      (items.map Chunk.val, t) ∧
    mainOutput (chunksEnc items (wsT ++ (tkT ++ ('\n' :: tail)))) =
      twoSum (items.map Chunk.val) t := by
  have h1 : parseMain (chunksEnc items (wsT ++ (tkT ++ ('\n' :: tail)))) =
      (items.map Chunk.val, t) := by
    unfold parseMain
    obtain ⟨n1, hc⟩ := readLoop_chunks items (wsT ++ (tkT ++ ('\n' :: tail))) hitems [] 0
    rw [hc, readLoop_break wsT tkT t tail ([] ++ items.map Chunk.val) n1 hws htk]
    simp
  refine ⟨h1, ?_⟩
  unfold mainOutput
  rw [h1]

theorem parseMain_line_w :
    parseMain (chunksEnc [⟨[], ['3'], 3, ' '⟩, ⟨[], ['2'], 2, ' '⟩, ⟨[], ['4'], 4, ' '⟩]
      ([] ++ (['6'] ++ ('\n' :: [])))) = ([3, 2, 4], 6) ∧
    mainOutput (chunksEnc [⟨[], ['3'], 3, ' '⟩, ⟨[], ['2'], 2, ' '⟩, ⟨[], ['4'], 4, ' '⟩]
      ([] ++ (['6'] ++ ('\n' :: [])))) = twoSum [3, 2, 4] 6 :=
  parseMain_line [⟨[], ['3'], 3, ' '⟩, ⟨[], ['2'], 2, ' '⟩, ⟨[], ['4'], 4, ' '⟩]
    [] ['6'] 6 [] (by decide) (by decide) (by decide)

/-- C10: EOF without a trailing newline.  For a stream of at least two
whitespace-separated integers in which no token is immediately followed by
a newline and the stream ends right after the last token, the last
integer is BOTH appended to the sequence and used as the target: `cin.get`
fails at end of stream leaving `c` at its previous non-newline value, so
the value is pushed, and the subsequent failed extraction leaves it in
`num` as the target.  It therefore also participates in the search as an
element. -/
theorem parseMain_eof (items : List Chunk) (wsT tkT : List Char) (t : Int)
    (hne : items ≠ []) (hitems : ∀ ch ∈ items, chunkOk ch)
    (hws : AllWS wsT) (htk : IsIntTok tkT t) :
    parseMain (chunksEnc items (wsT ++ tkT)) = (items.map Chunk.val ++ [t], t) ∧
    mainOutput (chunksEnc items (wsT ++ tkT)) =
      twoSum (items.map Chunk.val ++ [t]) t := by
  have h1 : parseMain (chunksEnc items (wsT ++ tkT)) =
      (items.map Chunk.val ++ [t], t) := by
    unfold parseMain
    obtain ⟨n1, hc⟩ := readLoop_chunks items (wsT ++ tkT) hitems [] 0
    rw [hc, readLoop_eof wsT tkT t ([] ++ items.map Chunk.val) n1 hws htk]
    simp
  refine ⟨h1, ?_⟩
  unfold mainOutput
  rw [h1]

theorem parseMain_eof_w :
    parseMain (chunksEnc [⟨[], ['3'], 3, ' '⟩] ([] ++ ['6'])) = ([3, 6], 6) ∧
    mainOutput (chunksEnc [⟨[], ['3'], 3, ' '⟩] ([] ++ ['6'])) = twoSum [3, 6] 6 :=
  parseMain_eof [⟨[], ['3'], 3, ' '⟩] [] ['6'] 6 (List.cons_ne_nil _ _)
    (by decide) (by decide) (by decide)
